import Mathlib

/-!
Verification of the Website-document frontend (Generate page and API client).

Texts are modelled as `List Char`.  JavaScript string operations used by the
source are embedded as executable Lean functions:

* `replaceAll pat repl s` models `s.replace(new RegExp(escaped pat, 'g'), repl)`
  for patterns whose variable part contains no regex metacharacters and
  replacement strings containing no `$` — left-to-right, non-overlapping global
  replacement, scanning resuming after each inserted replacement.
* `jsOr o d` models the JavaScript `o || d` idiom on an optional string:
  an absent or empty string falls through to the default.
-/

def strL (s : String) : List Char := s.data

/-- JavaScript `x || d` on an optional string: `none` and the empty string are
falsy and fall through to the default. -/
def jsOr (o : Option (List Char)) (d : List Char) : List Char :=
  match o with
  | some s => if s = [] then d else s
  | none => d

/-- Fuel-driven worker for `replaceAll`; the fuel bounds the number of scanned
positions so the recursion is structural and kernel-reducible. -/
def replaceAllF (pat repl : List Char) : Nat → List Char → List Char
  | 0, s => s
  | _ + 1, [] => []
  | fuel + 1, c :: cs =>
    if pat.isPrefixOf (c :: cs) then
      repl ++ replaceAllF pat repl fuel (List.drop (pat.length - 1) cs)
    else
      c :: replaceAllF pat repl fuel cs

/-- Global textual replacement of every non-overlapping occurrence of `pat`
by `repl`, scanning left to right, as performed by `String.replace` with a
global regex in the source. -/
def replaceAll (pat repl s : List Char) : List Char :=
  replaceAllF pat repl s.length s

/-- A text segment: either literal text or a `{{name}}` placeholder. Texts
made of brace-free literals and brace-free names are exactly those where the
regex-based substitution of the source acts placeholder by placeholder. -/
inductive Seg
  | lit (s : List Char)
  | ph (n : List Char)
  deriving DecidableEq

/-- The literal placeholder string `{{n}}`, the pattern built by the source
as `new RegExp('\\{\\{' + name + '\\}\\}', 'g')`. -/
def phStr (n : List Char) : List Char := '{' :: '{' :: (n ++ ['}', '}'])

def render : List Seg → List Char
  | [] => []
  | .lit s :: rest => s ++ render rest
  | .ph n :: rest => phStr n ++ render rest

def braceFree (s : List Char) : Bool :=
  s.all (fun c => !(c == '{') && !(c == '}'))

def segsWF (segs : List Seg) : Bool :=
  segs.all (fun sg =>
    match sg with
    | .lit s => braceFree s
    | .ph n => braceFree n)

/-- A declared template variable, as consumed by `Generate.tsx`
(`v.name`, `v.description`, `v.default_value`) and declared in the spec's
data model (`VariableSpec {name, description, required, default_value}`). -/
structure VariableSpec where
  name : List Char
  description : Option (List Char)
  required : Bool
  default_value : Option (List Char)
  deriving DecidableEq

/-- The replacement text the source computes for one variable:
`v.default_value || `[${v.description || v.name}]``. -/
def replacementFor (v : VariableSpec) : List Char :=
  jsOr v.default_value ('[' :: (jsOr v.description v.name ++ [']']))

/-- The client-side resolution step of `Generate.tsx` (lines 284–296): for each
declared variable, every `{{name}}` occurrence in the content is globally
replaced by `replacementFor`, one variable after the other
(`prompt.variables.forEach(v => content = content.replace(...))`). -/
def resolveContent (content : List Char) (vars : List VariableSpec) : List Char :=
  vars.foldl (fun c v => replaceAll (phStr v.name) (replacementFor v) c) content

/-- Substituting one name at the segment level. -/
def substOne (n repl : List Char) (segs : List Seg) : List Seg :=
  segs.map (fun sg =>
    match sg with
    | .lit l => .lit l
    | .ph m => if m = n then .lit repl else .ph m)

/-- Substituting every declared variable at the segment level: a placeholder
is resolved by the first declared variable carrying its name; undeclared
placeholders stay. -/
def substByLookup (vars : List VariableSpec) (sg : Seg) : Seg :=
  match sg with
  | .lit l => .lit l
  | .ph m =>
    match vars.find? (fun v => v.name = m) with
    | some v => .lit (replacementFor v)
    | none => .ph m

/-- `pat` occurs as a contiguous substring of `s`. -/
def containsSub (pat : List Char) : List Char → Bool
  | [] => pat.isEmpty
  | c :: cs => pat.isPrefixOf (c :: cs) || containsSub pat cs

/-- Characters special in a JavaScript regular expression. The source builds
its pattern with `new RegExp('\\{\\{' + v.name + '\\}\\}', 'g')` without
escaping `v.name`, so the embedding `replaceAll` (literal matching) is
faithful only for names free of these characters. -/
def regexMetaChars : List Char := strL ".*+?^$()[]|/\\{}"

def plainName (s : List Char) : Bool :=
  s.all (fun c => !(regexMetaChars.contains c))

/-- A replacement value for which JavaScript `String.replace` inserts the
text verbatim (no `$`-escape) and which introduces no brace characters. -/
def plainValue (s : List Char) : Bool :=
  braceFree s && s.all (fun c => !(c == '$'))

def varsOK (vars : List VariableSpec) : Bool :=
  vars.all (fun v => plainName v.name && plainValue (replacementFor v))

/-- A toast notification emitted through `react-hot-toast`. -/
inductive ToastMsg
  | success (m : List Char)
  | error (m : List Char)
  deriving DecidableEq

/-- The client state touched by the polling loop in `Generate.tsx`
(`isPolling`, `currentJobId`, `generatedContent` and the toasts shown). -/
structure ClientState where
  isPolling : Bool
  currentJobId : Option (List Char)
  generatedContent : Option (List Char)
  toasts : List ToastMsg
  deriving DecidableEq

/-- Outcome of the `generateApi.getResult` call: it resolved with a content
string, or it threw. -/
inductive FetchOutcome
  | ok (content : List Char)
  | threw
  deriving DecidableEq

/-- What the API did during one iteration of `pollResult`:
`statusThrow` — `generateApi.getJobStatus` threw;
`statusOk status error_message resultFetch` — the status call returned a
response `{status, error_message?}`, and `resultFetch` is the outcome of
`generateApi.getResult` in case the code consults it. -/
inductive PollResp
  | statusThrow
  | statusOk (status : List Char) (error_message : Option (List Char))
      (resultFetch : FetchOutcome)
  deriving DecidableEq

/-- Observable outcome of one iteration: whether a further poll was scheduled
(`setTimeout(pollResult, 2000)`) and whether `getResult` was invoked. -/
structure StepOut where
  sched : Option Nat
  calledGetResult : Bool
  deriving DecidableEq

/-- One iteration of `pollResult` in `Generate.tsx` (lines 80–101): on
`completed` fetch the result (success fills `generatedContent`, a throw lands
in the catch block); on `failed` show `error_message || 'Generation failed'`
and clear the job id; on any other status schedule the next poll after
2000 ms; the catch block stops polling, clears the job id and shows
`'Failed to get generation status'`. -/
def pollStep (st : ClientState) (r : PollResp) : ClientState × StepOut :=
  match r with
  | .statusThrow =>
    ({ st with
       isPolling := false
       currentJobId := none
       toasts := .error (strL "Failed to get generation status") :: st.toasts },
     ⟨none, false⟩)
  | .statusOk s em fetch =>
    if s = strL "completed" then
      match fetch with
      | .ok content =>
        ({ st with
           generatedContent := some content
           isPolling := false
           toasts := .success (strL "Document generated successfully!")
             :: st.toasts },
         ⟨none, true⟩)
      | .threw =>
        ({ st with
           isPolling := false
           currentJobId := none
           toasts := .error (strL "Failed to get generation status")
             :: st.toasts },
         ⟨none, true⟩)
    else if s = strL "failed" then
      ({ st with
         isPolling := false
         currentJobId := none
         toasts := .error (jsOr em (strL "Generation failed")) :: st.toasts },
       ⟨none, false⟩)
    else
      (st, ⟨some 2000, false⟩)

/-- A successful status poll observing a non-terminal status. -/
def isNonTerminalOk : PollResp → Bool
  | .statusThrow => false
  | .statusOk s _ _ => s ≠ strL "completed" && s ≠ strL "failed"

/-- The polling loop driven by a list of API behaviours: each iteration runs
`pollStep`; the loop continues with the next behaviour exactly when a further
poll was scheduled. Returns the final state and the trace of iterations. -/
def runPoll : ClientState → List PollResp → ClientState × List (PollResp × StepOut)
  | st, [] => (st, [])
  | st, r :: rs =>
    let p := pollStep st r
    if p.2.sched.isSome then
      ((runPoll p.1 rs).1, (r, p.2) :: (runPoll p.1 rs).2)
    else
      (p.1, [(r, p.2)])

/-- The status poll or the result fetch of this iteration throws. -/
def throwsDuring (r : PollResp) : Prop :=
  r = .statusThrow ∨
    ∃ em, r = .statusOk (strL "completed") em .threw

/-- Modelled from the spec: the backend Job Registry (not under `src/`)
guarantees that the get-job-status response of a failed job always carries a
non-empty human-readable error message. -/
def failedStatusHasErrorMsg (status : List Char)
    (error_message : Option (List Char)) : Prop :=
  status = strL "failed" → ∃ msg, error_message = some msg ∧ msg ≠ []

/-- The characters stripped by JavaScript `String.trim`: the ECMA-262
WhiteSpace set (tab, vertical tab, form feed, space, no-break space, the
Unicode space separators, narrow no-break space, medium mathematical space,
ideographic space, zero-width no-break space) and the LineTerminator set
(line feed, carriage return, line separator, paragraph separator). -/
def isJsWhitespace (c : Char) : Bool :=
  c = ' ' || c = '\t' || c = '\n' || c = '\r' || c = '\x0b' || c = '\x0c' ||
    c = '\xa0' || c = '\u1680' || ('\u2000' ≤ c && c ≤ '\u200a') ||
    c = '\u2028' || c = '\u2029' || c = '\u202f' || c = '\u205f' ||
    c = '\u3000' || c = '\ufeff'

/-- JavaScript `s.trim()`. -/
def trimJS (s : List Char) : List Char :=
  ((s.dropWhile isJsWhitespace).reverse.dropWhile isJsWhitespace).reverse

/-- A prompt template as consumed by the Generate page (`prompt.name`,
`prompt.content`, `prompt.variables`); the `variables` field is called
`variableSpecs` here because `variables` is a reserved command name. -/
structure Prompt where
  name : List Char
  content : List Char
  variableSpecs : List VariableSpec
  deriving DecidableEq

/-- The Generate-page state touched by the prompt-selector click handler. -/
structure GenState where
  textInput : List Char
  selectedPrompt : Option Prompt
  showPromptSelector : Bool
  toasts : List ToastMsg
  deriving DecidableEq

/-- The prompt-selection click handler of `Generate.tsx` (lines 280–298):
select the prompt, hide the selector, and — only when the current text input
is empty after trimming — pre-fill the text input with the resolved prompt
content; finally show the success toast. -/
def selectPrompt (st : GenState) (p : Prompt) : GenState :=
  { st with
    selectedPrompt := some p
    showPromptSelector := false
    textInput :=
      if trimJS st.textInput = [] then resolveContent p.content p.variableSpecs
      else st.textInput
    toasts := .success (strL "Loaded prompt: " ++ p.name) :: st.toasts }

/-- Job states of the generation-job state machine (spec §4.3). -/
inductive JobStatus
  | pending
  | processing
  | completed
  | failed
  deriving DecidableEq

/-- A job record as seen by the export path: status, raw generated content
(present only when completed), error message (present only when failed). -/
structure JobRecord where
  status : JobStatus
  content : Option (List Char)
  error : Option (List Char)
  deriving DecidableEq

/-- The distinct error kinds of the export path (spec §4.5/§7). -/
inductive ExportError
  | NotReadyError
  | JobFailedError
  | UnsupportedFormatError
  deriving DecidableEq

/-- The export formats offered by the frontend (`EXPORT_FORMATS` in
`Generate.tsx`): docx, pdf, md, html. -/
def supportedExportFormats : List (List Char) :=
  [strL "docx", strL "pdf", strL "md", strL "html"]

/-- Modelled from the spec: the Export Renderer `render(jobId, format)` — the
backend implementing it is not under `src/`. Per §4.5, rendering a pending or
processing job fails with `NotReadyError`, rendering a failed job fails with
`JobFailedError`, and an unsupported format fails with
`UnsupportedFormatError`; for a completed job with a supported format the
artifact is derived from the job's raw content (the format conversion itself
is abstracted as the identity on text). -/
def renderExport (job : JobRecord) (format : List Char) :
    Except ExportError (List Char) :=
  match job.status with
  | .pending => .error .NotReadyError
  | .processing => .error .NotReadyError
  | .failed => .error .JobFailedError
  | .completed =>
    if format ∈ supportedExportFormats then
      .ok (job.content.getD [])
    else
      .error .UnsupportedFormatError

/-- The literal `filename="` searched for by the regex
`/filename="(.+)"/` in `api.ts`. -/
def filenameMarker : List Char := strL "filename=\x22"

/-- Rightmost index of `c` in `s`. -/
def lastIdxOf (c : Char) : List Char → Option Nat
  | [] => none
  | a :: as =>
    match lastIdxOf c as with
    | some j => some (j + 1)
    | none => if a = c then some 0 else none

/-- The greedy capture of `(.+)"`: everything up to the rightmost quote,
provided at least one character precedes it. Models the greedy regex capture
for capture regions free of line terminators. -/
def grabCapture (b : List Char) : Option (List Char) :=
  match lastIdxOf '\x22' b with
  | some j => if 1 ≤ j then some (b.take j) else none
  | none => none

/-- The match of `/filename="(.+)"/` against a header value: scan left to
right for the marker, then capture greedily; a marker occurrence that cannot
complete a match is skipped, as the regex engine retries later positions. -/
def extractFilename : List Char → Option (List Char)
  | [] => none
  | c :: cs =>
    if filenameMarker.isPrefixOf (c :: cs) then
      match grabCapture (List.drop (filenameMarker.length - 1) cs) with
      | some cap => some cap
      | none => extractFilename cs
    else extractFilename cs

/-- The filename computed by `generateApi.download` in `api.ts` (lines
153–163): default `document.<format>`, overridden by the
`content-disposition` header's `filename="..."` capture when that regex
matches. -/
def downloadFilename (format : List Char)
    (contentDisposition : Option (List Char)) : List Char :=
  match contentDisposition with
  | none => strL "document." ++ format
  | some cd =>
    match extractFilename cd with
    | some f => f
    | none => strL "document." ++ format

theorem replaceAllF_fuel (pat repl : List Char) :
    ∀ f₁ f₂ s, s.length ≤ f₁ → s.length ≤ f₂ →
      replaceAllF pat repl f₁ s = replaceAllF pat repl f₂ s := by
  intro f₁
  induction f₁ with
  | zero =>
    intro f₂ s h₁ _
    have hs : s = [] := List.eq_nil_of_length_eq_zero (Nat.le_zero.mp h₁)
    subst hs
    cases f₂ <;> rfl
  | succ f ih =>
    intro f₂ s h₁ h₂
    cases s with
    | nil => cases f₂ <;> rfl
    | cons c cs =>
      cases f₂ with
      | zero => simp at h₂
      | succ g =>
        simp only [replaceAllF]
        by_cases hp : pat.isPrefixOf (c :: cs) = true
        · simp only [hp, if_true]
          have hlen : (List.drop (pat.length - 1) cs).length ≤ cs.length := by
            rw [List.length_drop]; omega
          have hcs : cs.length ≤ f := by
            simp only [List.length_cons] at h₁; omega
          have hcs' : cs.length ≤ g := by
            simp only [List.length_cons] at h₂; omega
          rw [ih g _ (le_trans hlen hcs) (le_trans hlen hcs')]
        · simp only [hp, Bool.false_eq_true, if_false]
          have hcs : cs.length ≤ f := by
            simp only [List.length_cons] at h₁; omega
          have hcs' : cs.length ≤ g := by
            simp only [List.length_cons] at h₂; omega
          rw [ih g _ hcs hcs']

theorem replaceAll_nil (pat repl : List Char) : replaceAll pat repl [] = [] := rfl

theorem replaceAll_cons_pos (pat repl : List Char) (c : Char) (cs : List Char)
    (h : pat.isPrefixOf (c :: cs) = true) :
    replaceAll pat repl (c :: cs) =
      repl ++ replaceAll pat repl (List.drop (pat.length - 1) cs) := by
  unfold replaceAll
  simp only [List.length_cons, replaceAllF, h, if_true]
  congr 1
  apply replaceAllF_fuel
  · rw [List.length_drop]; omega
  · exact le_rfl

theorem replaceAll_cons_neg (pat repl : List Char) (c : Char) (cs : List Char)
    (h : pat.isPrefixOf (c :: cs) = false) :
    replaceAll pat repl (c :: cs) = c :: replaceAll pat repl cs := by
  unfold replaceAll
  simp only [List.length_cons, replaceAllF, h, Bool.false_eq_true, if_false]

theorem braceFree_no_lbrace {s : List Char} (h : braceFree s = true) :
    ∀ c ∈ s, c ≠ '{' := by
  intro c hc
  have := (List.all_eq_true.mp h) c hc
  simp only [Bool.and_eq_true, Bool.not_eq_true', beq_eq_false_iff_ne] at this
  exact this.1

theorem braceFree_no_rbrace {s : List Char} (h : braceFree s = true) :
    ∀ c ∈ s, c ≠ '}' := by
  intro c hc
  have := (List.all_eq_true.mp h) c hc
  simp only [Bool.and_eq_true, Bool.not_eq_true', beq_eq_false_iff_ne] at this
  exact this.2

/-- Scanning a brace-free literal cannot start a match of a pattern whose
first character is `{`. -/
theorem replaceAll_skip_lit (pt repl : List Char) :
    ∀ (l rest : List Char), braceFree l = true →
      replaceAll ('{' :: pt) repl (l ++ rest) =
        l ++ replaceAll ('{' :: pt) repl rest := by
  intro l
  induction l with
  | nil => intro rest _; rfl
  | cons c cs ih =>
    intro rest hbf
    have hc : c ≠ '{' := braceFree_no_lbrace hbf c (by simp)
    have hbf' : braceFree cs = true := by
      simp only [braceFree, List.all_cons, Bool.and_eq_true] at hbf
      exact hbf.2
    have hpre : ('{' :: pt).isPrefixOf (c :: (cs ++ rest)) = false := by
      simp only [List.isPrefixOf, Bool.and_eq_false_iff]
      left
      exact beq_eq_false_iff_ne.mpr (Ne.symm hc)
    rw [List.cons_append, replaceAll_cons_neg _ _ _ _ hpre, ih rest hbf',
      List.cons_append]

theorem isPrefixOf_self_append : ∀ (l t : List Char), l.isPrefixOf (l ++ t) = true
  | [], _ => by simp [List.isPrefixOf]
  | c :: l', t => by
    simp only [List.cons_append, List.isPrefixOf, beq_self_eq_true, Bool.true_and]
    exact isPrefixOf_self_append l' t

/-- A match at the very head of the text is replaced and scanning resumes
after it. -/
theorem replaceAll_match_head (pt repl rest : List Char) :
    replaceAll ('{' :: pt) repl (('{' :: pt) ++ rest) =
      repl ++ replaceAll ('{' :: pt) repl rest := by
  have hpre : ('{' :: pt).isPrefixOf ('{' :: (pt ++ rest)) = true := by
    have h := isPrefixOf_self_append ('{' :: pt) rest
    rw [List.cons_append] at h
    exact h
  rw [List.cons_append, replaceAll_cons_pos _ _ _ _ hpre]
  congr 1
  have hd : List.drop (('{' :: pt).length - 1) (pt ++ rest) = rest := by
    simp only [List.length_cons, Nat.add_sub_cancel]
    exact List.drop_left pt rest
  rw [hd]

/-- Two placeholders with distinct brace-free names never match each other:
comparing `n}}…` against `m}}…` fails before either closing brace pair is
consumed. -/
theorem isPrefixOf_core_distinct :
    ∀ (n m a b : List Char), braceFree n = true → braceFree m = true → m ≠ n →
      (n ++ '}' :: a).isPrefixOf (m ++ '}' :: b) = false := by
  intro n
  induction n with
  | nil =>
    intro m a b _ hm hne
    cases m with
    | nil => exact absurd rfl hne
    | cons d m' =>
      have hd : d ≠ '}' := braceFree_no_rbrace hm d (by simp)
      simp only [List.nil_append, List.cons_append, List.isPrefixOf,
        Bool.and_eq_false_iff]
      left
      exact beq_eq_false_iff_ne.mpr (Ne.symm hd)
  | cons c n' ih =>
    intro m a b hn hm hne
    have hc : c ≠ '}' := braceFree_no_rbrace hn c (by simp)
    have hn' : braceFree n' = true := by
      simp only [braceFree, List.all_cons, Bool.and_eq_true] at hn
      exact hn.2
    cases m with
    | nil =>
      simp only [List.nil_append, List.cons_append, List.isPrefixOf,
        Bool.and_eq_false_iff]
      left
      exact beq_eq_false_iff_ne.mpr hc
    | cons d m' =>
      have hm' : braceFree m' = true := by
        simp only [braceFree, List.all_cons, Bool.and_eq_true] at hm
        exact hm.2
      simp only [List.cons_append, List.isPrefixOf]
      by_cases hcd : c = d
      · subst hcd
        have hne' : m' ≠ n' := by
          intro h; exact hne (by rw [h])
        simp only [beq_self_eq_true, Bool.true_and]
        exact ih m' a b hn' hm' hne'
      · simp only [Bool.and_eq_false_iff]
        left
        exact beq_eq_false_iff_ne.mpr hcd

/-- A pattern starting with `{` cannot match at a position whose text begins
with a brace-free run followed by `}`. -/
theorem isPrefixOf_lbrace_vs_core (xs : List Char) :
    ∀ (m b : List Char), braceFree m = true →
      ('{' :: xs).isPrefixOf (m ++ '}' :: b) = false := by
  intro m b hm
  cases m with
  | nil =>
    simp only [List.nil_append, List.isPrefixOf, Bool.and_eq_false_iff]
    left
    exact beq_eq_false_iff_ne.mpr (by decide)
  | cons d m' =>
    have hd : d ≠ '{' := braceFree_no_lbrace hm d (by simp)
    simp only [List.cons_append, List.isPrefixOf, Bool.and_eq_false_iff]
    left
    exact beq_eq_false_iff_ne.mpr (Ne.symm hd)

/-- Scanning a placeholder for a different brace-free name leaves it intact. -/
theorem replaceAll_skip_foreign_ph (n m repl rest : List Char)
    (hn : braceFree n = true) (hm : braceFree m = true) (hne : m ≠ n) :
    replaceAll (phStr n) repl (phStr m ++ rest) =
      phStr m ++ replaceAll (phStr n) repl rest := by
  have htext : phStr m ++ rest = '{' :: '{' :: (m ++ ('}' :: '}' :: rest)) := by
    simp [phStr, List.append_assoc]
  have h₀ : (phStr n).isPrefixOf ('{' :: '{' :: (m ++ ('}' :: '}' :: rest))) = false := by
    simp only [phStr, List.isPrefixOf, beq_self_eq_true, Bool.true_and]
    have := isPrefixOf_core_distinct n m ['}'] ('}' :: rest) hn hm hne
    simpa [List.append_assoc] using this
  have h₁ : (phStr n).isPrefixOf ('{' :: (m ++ ('}' :: '}' :: rest))) = false := by
    simp only [phStr, List.isPrefixOf, beq_self_eq_true, Bool.true_and]
    exact isPrefixOf_lbrace_vs_core (n ++ ['}', '}']) m ('}' :: rest) hm
  have h₂ : (phStr n).isPrefixOf ('}' :: ('}' :: rest)) = false := by
    simp only [phStr, List.isPrefixOf, Bool.and_eq_false_iff]
    left
    exact beq_eq_false_iff_ne.mpr (by decide)
  have h₃ : (phStr n).isPrefixOf ('}' :: rest) = false := by
    simp only [phStr, List.isPrefixOf, Bool.and_eq_false_iff]
    left
    exact beq_eq_false_iff_ne.mpr (by decide)
  rw [htext, replaceAll_cons_neg _ _ _ _ h₀, replaceAll_cons_neg _ _ _ _ h₁]
  have hskip : replaceAll (phStr n) repl (m ++ ('}' :: '}' :: rest)) =
      m ++ replaceAll (phStr n) repl ('}' :: '}' :: rest) :=
    replaceAll_skip_lit _ repl m ('}' :: '}' :: rest) hm
  rw [hskip, replaceAll_cons_neg _ _ _ _ h₂, replaceAll_cons_neg _ _ _ _ h₃]
  simp [phStr, List.append_assoc]

theorem replaceAll_render (n repl : List Char)
    (hn : braceFree n = true) :
    ∀ segs, segsWF segs = true →
      replaceAll (phStr n) repl (render segs) = render (substOne n repl segs) := by
  intro segs
  induction segs with
  | nil => intro _; exact replaceAll_nil _ _
  | cons sg rest ih =>
    intro hwf
    cases sg with
    | lit l =>
      simp only [segsWF, List.all_cons, Bool.and_eq_true] at hwf
      have hl : braceFree l = true := hwf.1
      have hwfr : segsWF rest = true := hwf.2
      have : replaceAll (phStr n) repl (l ++ render rest) =
          l ++ replaceAll (phStr n) repl (render rest) :=
        replaceAll_skip_lit _ repl l (render rest) hl
      simp only [render, substOne, List.map_cons]
      rw [this, ih hwfr]
      rfl
    | ph m =>
      simp only [segsWF, List.all_cons, Bool.and_eq_true] at hwf
      have hm : braceFree m = true := hwf.1
      have hwfr : segsWF rest = true := hwf.2
      by_cases hmn : m = n
      · subst hmn
        simp only [render, substOne, List.map_cons, if_pos rfl]
        have : replaceAll (phStr m) repl (phStr m ++ render rest) =
            repl ++ replaceAll (phStr m) repl (render rest) :=
          replaceAll_match_head _ repl (render rest)
        rw [this, ih hwfr]
        rfl
      · simp only [render, substOne, List.map_cons, if_neg hmn]
        rw [replaceAll_skip_foreign_ph n m repl (render rest) hn hm hmn, ih hwfr]
        rfl

theorem segsWF_substOne (n repl : List Char) (hr : braceFree repl = true) :
    ∀ segs, segsWF segs = true → segsWF (substOne n repl segs) = true := by
  intro segs
  induction segs with
  | nil => intro _; rfl
  | cons sg rest ih =>
    intro hwf
    simp only [segsWF, List.all_cons, Bool.and_eq_true] at hwf
    have hrest := ih hwf.2
    cases sg with
    | lit l =>
      simp only [substOne, List.map_cons, segsWF, List.all_cons, Bool.and_eq_true]
      exact ⟨hwf.1, hrest⟩
    | ph m =>
      by_cases hmn : m = n
      · simp only [substOne, List.map_cons, if_pos hmn, segsWF, List.all_cons,
          Bool.and_eq_true]
        exact ⟨hr, hrest⟩
      · simp only [substOne, List.map_cons, if_neg hmn, segsWF, List.all_cons,
          Bool.and_eq_true]
        exact ⟨hwf.1, hrest⟩

theorem map_substByLookup_nil : ∀ segs : List Seg, segs.map (substByLookup []) = segs := by
  intro segs
  induction segs with
  | nil => rfl
  | cons sg rest ih =>
    cases sg with
    | lit l => simp only [List.map_cons, substByLookup, ih]
    | ph m => simp only [List.map_cons, substByLookup, List.find?_nil, ih]

theorem substByLookup_substOne (v : VariableSpec) (vs : List VariableSpec) :
    ∀ sg : Seg,
      substByLookup vs
        (match sg with
         | .lit l => .lit l
         | .ph m => if m = v.name then .lit (replacementFor v) else .ph m) =
      substByLookup (v :: vs) sg := by
  intro sg
  cases sg with
  | lit l => rfl
  | ph m =>
    by_cases hm : m = v.name
    · subst hm
      simp [substByLookup, List.find?_cons]
    · have hm' : v.name ≠ m := fun h => hm h.symm
      simp [substByLookup, List.find?_cons, hm, hm']

theorem foldl_substOne_eq_map (vars : List VariableSpec) :
    ∀ segs : List Seg,
      vars.foldl (fun sg v => substOne v.name (replacementFor v) sg) segs =
        segs.map (substByLookup vars) := by
  induction vars with
  | nil => intro segs; simp only [List.foldl_nil, map_substByLookup_nil]
  | cons v vs ih =>
    intro segs
    simp only [List.foldl_cons]
    rw [ih (substOne v.name (replacementFor v) segs)]
    simp only [substOne, List.map_map]
    apply List.map_congr_left
    intro sg _
    exact substByLookup_substOne v vs sg

theorem segsWF_foldl (vars : List VariableSpec)
    (hv : ∀ v ∈ vars, braceFree (replacementFor v) = true) :
    ∀ segs, segsWF segs = true →
      segsWF (vars.foldl (fun sg v => substOne v.name (replacementFor v) sg) segs)
        = true := by
  induction vars with
  | nil => intro segs h; exact h
  | cons v vs ih =>
    intro segs h
    simp only [List.foldl_cons]
    exact ih (fun w hw => hv w (List.mem_cons_of_mem v hw)) _
      (segsWF_substOne v.name (replacementFor v)
        (hv v (List.mem_cons_self v vs)) segs h)

/-- Characterisation of the source's sequential per-variable substitution on a
well-formed placeholder text: each declared placeholder resolves to the first
matching variable's replacement, undeclared placeholders stay. -/
theorem resolveContent_eq_render (segs : List Seg) (vars : List VariableSpec)
    (hwf : segsWF segs = true)
    (hv : ∀ v ∈ vars, braceFree v.name = true ∧ braceFree (replacementFor v) = true) :
    resolveContent (render segs) vars = render (segs.map (substByLookup vars)) := by
  rw [← foldl_substOne_eq_map]
  unfold resolveContent
  induction vars generalizing segs with
  | nil => simp only [List.foldl_nil]
  | cons v vs ih =>
    simp only [List.foldl_cons]
    rw [replaceAll_render v.name (replacementFor v)
      (hv v (List.mem_cons_self v vs)).1 segs hwf]
    exact ih (substOne v.name (replacementFor v) segs)
      (segsWF_substOne v.name (replacementFor v)
        (hv v (List.mem_cons_self v vs)).2 segs hwf)
      (fun w hw => hv w (List.mem_cons_of_mem v hw))

theorem replaceAll_of_not_containsSub (pat repl : List Char) :
    ∀ s, containsSub pat s = false → replaceAll pat repl s = s := by
  intro s
  induction s with
  | nil => intro _; exact replaceAll_nil _ _
  | cons c cs ih =>
    intro h
    simp only [containsSub, Bool.or_eq_false_iff] at h
    rw [replaceAll_cons_neg _ _ _ _ h.1, ih h.2]

/-- Resolution is the identity on a text containing no declared placeholder. -/
theorem resolveContent_of_no_placeholder (content : List Char)
    (vars : List VariableSpec)
    (h : ∀ v ∈ vars, containsSub (phStr v.name) content = false) :
    resolveContent content vars = content := by
  unfold resolveContent
  induction vars with
  | nil => rfl
  | cons v vs ih =>
    simp only [List.foldl_cons]
    rw [replaceAll_of_not_containsSub _ _ _ (h v (List.mem_cons_self v vs))]
    exact ih (fun w hw => h w (List.mem_cons_of_mem v hw))

theorem braceFree_of_plainName {s : List Char} (h : plainName s = true) :
    braceFree s = true := by
  rw [braceFree, List.all_eq_true]
  intro c hc
  have hp := (List.all_eq_true.mp h) c hc
  simp only [Bool.not_eq_true'] at hp
  simp only [Bool.and_eq_true, Bool.not_eq_true', beq_eq_false_iff_ne]
  constructor
  · intro hcl
    subst hcl
    simp [regexMetaChars, strL] at hp
  · intro hcr
    subst hcr
    simp [regexMetaChars, strL] at hp

theorem varsOK_names_values {vars : List VariableSpec} (h : varsOK vars = true) :
    ∀ v ∈ vars, braceFree v.name = true ∧ braceFree (replacementFor v) = true := by
  intro v hv
  have := (List.all_eq_true.mp h) v hv
  simp only [Bool.and_eq_true] at this
  refine ⟨braceFree_of_plainName this.1, ?_⟩
  have := this.2
  simp only [plainValue, Bool.and_eq_true] at this
  exact this.1

theorem substByLookup_beq_ph (vars : List VariableSpec) (n : List Char)
    (hn : vars.find? (fun v => v.name = n) = none) :
    ∀ sg : Seg, (substByLookup vars sg == Seg.ph n) = (sg == Seg.ph n) := by
  intro sg
  cases sg with
  | lit l => rfl
  | ph m =>
    by_cases hmn : m = n
    · subst hmn
      simp only [substByLookup, hn]
    · simp only [substByLookup]
      cases List.find? (fun v => decide (v.name = m)) vars with
      | some v => simp [hmn]
      | none => rfl

theorem count_ph_map_substByLookup (vars : List VariableSpec) (n : List Char)
    (hn : vars.find? (fun v => v.name = n) = none) :
    ∀ segs : List Seg,
      List.count (Seg.ph n) (segs.map (substByLookup vars)) =
        List.count (Seg.ph n) segs := by
  intro segs
  induction segs with
  | nil => rfl
  | cons sg rest ih =>
    simp only [List.map_cons, List.count_cons, ih,
      substByLookup_beq_ph vars n hn sg]

/-- C1 (amended): in the client-side resolution step of `Generate.tsx`, on a
template content made of brace-free literal runs and `{{name}}` placeholders
with plain (regex-metacharacter-free) names, every occurrence of a declared
variable's `{{name}}` is replaced by that variable's `default_value` when a
non-empty one exists, and otherwise by the visible marker
`[description]` — or `[name]` when the description is absent or empty — as
spelled out by `replacementFor`/`substByLookup`; the claim as frozen is
refuted at an empty-string `default_value` (see the counterexample). -/
theorem c1_resolution_replaces_declared_placeholders
    (segs : List Seg) (vars : List VariableSpec)
    (hwf : segsWF segs = true) (hv : varsOK vars = true) :
    resolveContent (render segs) vars = render (segs.map (substByLookup vars)) :=
  resolveContent_eq_render segs vars hwf (varsOK_names_values hv)

/-- C1: the claim as stated is false on the code: for the variable `x` with
`description = "d"` and the existing (but empty) `default_value = ""`, the
code substitutes the marker `[d]`, not the existing default value `""`. -/
theorem c1_resolution_counterexample :
    resolveContent (strL "{{x}}")
        [⟨strL "x", some (strL "d"), false, some (strL "")⟩] = strL "[d]" ∧
      resolveContent (strL "{{x}}")
        [⟨strL "x", some (strL "d"), false, some (strL "")⟩] ≠ strL "" := by
  constructor
  · decide
  · decide

/-- C1 witness: the amended theorem applied to the concrete template
`"Project: {{name}}"` with one declared variable `name` whose default is
`"Inventory"`. -/
theorem c1_resolution_witness :
    segsWF [Seg.lit (strL "Project: "), Seg.ph (strL "name")] = true ∧
      varsOK [⟨strL "name", none, true, some (strL "Inventory")⟩] = true ∧
      resolveContent
          (render [Seg.lit (strL "Project: "), Seg.ph (strL "name")])
          [⟨strL "name", none, true, some (strL "Inventory")⟩] =
        render ([Seg.lit (strL "Project: "), Seg.ph (strL "name")].map
          (substByLookup [⟨strL "name", none, true, some (strL "Inventory")⟩])) :=
  ⟨by decide, by decide,
    c1_resolution_replaces_declared_placeholders
      [Seg.lit (strL "Project: "), Seg.ph (strL "name")]
      [⟨strL "name", none, true, some (strL "Inventory")⟩]
      (by decide) (by decide)⟩

/-- C5 (amended): for variable lists in the plain-name regime (`varsOK`,
where the source's unescaped `new RegExp` performs literal matching), the
client-side resolution step is the identity on every text containing no
occurrence of `{{name}}` for any declared variable; the frozen claim's
further clause that resolving twice always equals resolving once fails on
the code (see the counterexample), because a replacement can recombine with
surrounding text into a new declared placeholder. -/
theorem c5_resolution_identity_on_resolved_text
    (content : List Char) (vars : List VariableSpec)
    (hv : varsOK vars = true)
    (h : ∀ v ∈ vars, containsSub (phStr v.name) content = false) :
    resolveContent content vars = content :=
  resolveContent_of_no_placeholder content vars h

/-- C5: the claim as stated is false on the code: with the single declared
variable `xby` (default `"b"`) and content `"{{x{{xby}}y}}"`, one resolution
yields `"{{xby}}"` and a second resolution yields `"b"`, so applying
resolution twice differs from applying it once. -/
theorem c5_idempotence_counterexample :
    resolveContent
        (resolveContent (strL "{{x{{xby}}y}}")
          [⟨strL "xby", none, false, some (strL "b")⟩])
        [⟨strL "xby", none, false, some (strL "b")⟩] ≠
      resolveContent (strL "{{x{{xby}}y}}")
        [⟨strL "xby", none, false, some (strL "b")⟩] := by
  decide

/-- C5 witness: the amended theorem applied to the already-resolved text
`"Project: Inventory"` and the declared plain-named variable `name`. -/
theorem c5_resolution_identity_witness :
    varsOK [⟨strL "name", none, true, some (strL "Inventory")⟩] = true ∧
      (∀ v ∈ [(⟨strL "name", none, true, some (strL "Inventory")⟩ : VariableSpec)],
        containsSub (phStr v.name) (strL "Project: Inventory") = false) ∧
      resolveContent (strL "Project: Inventory")
          [⟨strL "name", none, true, some (strL "Inventory")⟩] =
        strL "Project: Inventory" :=
  ⟨by decide, by decide,
    c5_resolution_identity_on_resolved_text (strL "Project: Inventory")
      [⟨strL "name", none, true, some (strL "Inventory")⟩]
      (by decide) (by decide)⟩

/-- C6: on a template content made of brace-free literal runs and `{{name}}`
placeholders with plain names, a placeholder `{{n}}` whose name is declared
by no variable of the list is left verbatim by the resolution step — it is
neither substituted (`substByLookup` keeps it) nor erased (its occurrence
count among the segments is unchanged). -/
theorem c6_undeclared_placeholders_left_verbatim
    (segs : List Seg) (vars : List VariableSpec) (n : List Char)
    (hwf : segsWF segs = true) (hv : varsOK vars = true)
    (hn : vars.find? (fun v => v.name = n) = none) :
    resolveContent (render segs) vars = render (segs.map (substByLookup vars)) ∧
      List.count (Seg.ph n) (segs.map (substByLookup vars)) =
        List.count (Seg.ph n) segs ∧
      ∀ sg ∈ segs, sg = Seg.ph n → substByLookup vars sg = Seg.ph n := by
  refine ⟨resolveContent_eq_render segs vars hwf (varsOK_names_values hv),
    count_ph_map_substByLookup vars n hn segs, ?_⟩
  intro sg _ hsg
  subst hsg
  simp only [substByLookup, hn]

/-- C6 witness: the theorem applied to the content `"{{project}} by {{author}}"`
where only `project` is declared: the `author` placeholder survives. -/
theorem c6_undeclared_witness :
    segsWF [Seg.ph (strL "project"), Seg.lit (strL " by "),
        Seg.ph (strL "author")] = true ∧
      resolveContent
          (render [Seg.ph (strL "project"), Seg.lit (strL " by "),
            Seg.ph (strL "author")])
          [⟨strL "project", none, false, some (strL "MDMS")⟩] =
        render ([Seg.ph (strL "project"), Seg.lit (strL " by "),
          Seg.ph (strL "author")].map
            (substByLookup [⟨strL "project", none, false, some (strL "MDMS")⟩])) :=
  ⟨by decide,
    (c6_undeclared_placeholders_left_verbatim
      [Seg.ph (strL "project"), Seg.lit (strL " by "), Seg.ph (strL "author")]
      [⟨strL "project", none, false, some (strL "MDMS")⟩]
      (strL "author") (by decide) (by decide) (by decide)).1⟩

theorem pollStep_nonterminal (st : ClientState) (r : PollResp)
    (h : isNonTerminalOk r = true) : pollStep st r = (st, ⟨some 2000, false⟩) := by
  cases r with
  | statusThrow => simp [isNonTerminalOk] at h
  | statusOk s em fetch =>
    simp only [isNonTerminalOk, Bool.and_eq_true, decide_eq_true_eq] at h
    simp only [pollStep, if_neg h.1, if_neg h.2]

theorem pollStep_calledGetResult (st : ClientState) (r : PollResp)
    (h : (pollStep st r).2.calledGetResult = true) :
    ∃ em f, r = PollResp.statusOk (strL "completed") em f := by
  cases r with
  | statusThrow => simp [pollStep] at h
  | statusOk s em fetch =>
    by_cases hc : s = strL "completed"
    · exact ⟨em, fetch, by rw [hc]⟩
    · by_cases hf : s = strL "failed"
      · simp only [pollStep, if_neg hc, if_pos hf] at h
        simp at h
      · simp only [pollStep, if_neg hc, if_neg hf] at h
        simp at h

theorem runPoll_length_nonterminal :
    ∀ (rs : List PollResp) (st : ClientState),
      (∀ r ∈ rs, isNonTerminalOk r = true) →
      (runPoll st rs).2.length = rs.length := by
  intro rs
  induction rs with
  | nil => intro st _; rfl
  | cons r rs' ih =>
    intro st h
    have hr := h r (List.mem_cons_self r rs')
    have hstep := pollStep_nonterminal st r hr
    simp only [runPoll, hstep, Option.isSome_some, if_true, List.length_cons]
    rw [ih st (fun x hx => h x (List.mem_cons_of_mem r hx))]

/-- C2: in the polling loop of `Generate.tsx`, when the observed status is
`completed` or `failed` polling stops (`isPolling` is cleared and no further
poll is scheduled), and for every other observed status exactly one further
poll is scheduled after the fixed 2000 ms interval; consequently the loop
consumes every successful non-terminal status response without stopping. -/
theorem c2_polling_fixed_backoff (st : ClientState)
    (s : List Char) (em : Option (List Char)) (fetch : FetchOutcome) :
    ((s = strL "completed" ∨ s = strL "failed") →
        (pollStep st (.statusOk s em fetch)).2.sched = none ∧
          (pollStep st (.statusOk s em fetch)).1.isPolling = false) ∧
      ((s ≠ strL "completed" ∧ s ≠ strL "failed") →
        (pollStep st (.statusOk s em fetch)).2 = ⟨some 2000, false⟩) ∧
      (∀ rs : List PollResp, (∀ r ∈ rs, isNonTerminalOk r = true) →
        (runPoll st rs).2.length = rs.length) := by
  refine ⟨?_, ?_, fun rs h => runPoll_length_nonterminal rs st h⟩
  · rintro (hc | hf)
    · subst hc
      simp only [pollStep, if_pos rfl]
      cases fetch <;> exact ⟨rfl, rfl⟩
    · subst hf
      have hne : ¬ strL "failed" = strL "completed" := by decide
      simp only [pollStep, if_neg hne, if_pos rfl]
      exact ⟨rfl, rfl⟩
  · intro h
    have := pollStep_nonterminal st (.statusOk s em fetch) (by
      simp only [isNonTerminalOk, Bool.and_eq_true, decide_eq_true_eq]
      exact h)
    rw [this]

/-- C2 witness: the theorem applied at a polling state with a `processing`
status (one further poll after 2000 ms) and at a two-element non-terminal
trace (the loop consumes both responses). -/
theorem c2_polling_witness :
    (pollStep ⟨true, some (strL "j1"), none, []⟩
        (.statusOk (strL "processing") none .threw)).2 = ⟨some 2000, false⟩ ∧
      (runPoll ⟨true, some (strL "j1"), none, []⟩
        [.statusOk (strL "processing") none .threw,
         .statusOk (strL "pending") none .threw]).2.length = 2 :=
  ⟨(c2_polling_fixed_backoff ⟨true, some (strL "j1"), none, []⟩
      (strL "processing") none .threw).2.1 (by decide),
    (c2_polling_fixed_backoff ⟨true, some (strL "j1"), none, []⟩
      (strL "processing") none .threw).2.2
      [.statusOk (strL "processing") none .threw,
       .statusOk (strL "pending") none .threw] (by decide)⟩

/-- C7: in every execution of the polling loop, `getResult` is invoked only in
an iteration whose observed status is `completed`: any trace entry that called
`getResult` consumed a `statusOk "completed"` response. -/
theorem c7_getResult_only_after_completed :
    ∀ (st : ClientState) (rs : List PollResp) (r : PollResp) (o : StepOut),
      (r, o) ∈ (runPoll st rs).2 → o.calledGetResult = true →
      ∃ em f, r = PollResp.statusOk (strL "completed") em f := by
  intro st rs
  induction rs generalizing st with
  | nil =>
    intro r o hmem _
    simp [runPoll] at hmem
  | cons r' rs' ih =>
    intro r o hmem hcall
    by_cases hs : (pollStep st r').2.sched.isSome = true
    · simp only [runPoll, hs, if_true] at hmem
      rcases List.mem_cons.mp hmem with heq | htail
      · have hr : r = r' ∧ o = (pollStep st r').2 := by
          exact Prod.mk.injEq .. ▸ heq
        obtain ⟨hr1, hr2⟩ := Prod.mk.inj heq
        subst hr1; subst hr2
        exact pollStep_calledGetResult st r hcall
      · exact ih (pollStep st r').1 r o htail hcall
    · simp only [runPoll, hs, Bool.false_eq_true, if_false,
        List.mem_singleton] at hmem
      obtain ⟨hr1, hr2⟩ := Prod.mk.inj hmem
      subst hr1; subst hr2
      exact pollStep_calledGetResult st r hcall

/-- C7 witness: the theorem applied to the one-iteration trace in which the
status `completed` was observed and `getResult` was called. -/
theorem c7_getResult_witness :
    ∃ em f, PollResp.statusOk (strL "completed") none (.ok (strL "# Doc")) =
      PollResp.statusOk (strL "completed") em f :=
  c7_getResult_only_after_completed ⟨true, some (strL "j1"), none, []⟩
    [.statusOk (strL "completed") none (.ok (strL "# Doc"))]
    (.statusOk (strL "completed") none (.ok (strL "# Doc")))
    ⟨none, true⟩ (by decide) (by decide)

/-- C10: if the status poll throws, or the result fetch after a `completed`
status throws, the catch block stops polling, clears the current job id,
reports the status-fetch error toast, schedules no further poll, and the loop
terminates with that iteration — the remaining responses are never consumed. -/
theorem c10_throw_stops_polling (st : ClientState) (r : PollResp)
    (rs : List PollResp) (h : throwsDuring r) :
    (pollStep st r).1.isPolling = false ∧
      (pollStep st r).1.currentJobId = none ∧
      (pollStep st r).2.sched = none ∧
      (pollStep st r).1.toasts.head? =
        some (.error (strL "Failed to get generation status")) ∧
      (runPoll st (r :: rs)).2 = [(r, (pollStep st r).2)] := by
  rcases h with h | ⟨em, h⟩ <;> subst h
  · exact ⟨rfl, rfl, rfl, rfl, rfl⟩
  · have hc : strL "completed" = strL "completed" := rfl
    refine ⟨?_, ?_, ?_, ?_, ?_⟩ <;>
      simp [pollStep, runPoll]

/-- C10 witness: the theorem applied to a throwing status poll followed by a
further (never consumed) response. -/
theorem c10_throw_witness :
    (pollStep ⟨true, some (strL "j1"), none, []⟩ PollResp.statusThrow).1.isPolling
        = false ∧
      (pollStep ⟨true, some (strL "j1"), none, []⟩
        PollResp.statusThrow).1.currentJobId = none ∧
      (pollStep ⟨true, some (strL "j1"), none, []⟩ PollResp.statusThrow).2.sched
        = none ∧
      (pollStep ⟨true, some (strL "j1"), none, []⟩
          PollResp.statusThrow).1.toasts.head? =
        some (.error (strL "Failed to get generation status")) ∧
      (runPoll ⟨true, some (strL "j1"), none, []⟩
          [PollResp.statusThrow, .statusOk (strL "pending") none .threw]).2 =
        [(PollResp.statusThrow,
          (pollStep ⟨true, some (strL "j1"), none, []⟩ PollResp.statusThrow).2)] :=
  c10_throw_stops_polling ⟨true, some (strL "j1"), none, []⟩ PollResp.statusThrow
    [.statusOk (strL "pending") none .threw] (Or.inl rfl)

/-- C4: the get-job-status response is modelled with shape
`{status, error_message?}`; under the spec-modelled backend guarantee that a
failed job's response always carries a non-empty human-readable message, the
polling loop, on observing status `failed`, reports exactly that message to
the user. -/
theorem c4_failed_reads_error_field (st : ClientState) (s : List Char)
    (em : Option (List Char)) (fetch : FetchOutcome)
    (hspec : failedStatusHasErrorMsg s em) (hs : s = strL "failed") :
    ∃ msg, em = some msg ∧ msg ≠ [] ∧
      (pollStep st (.statusOk s em fetch)).1.toasts.head? =
        some (.error msg) := by
  subst hs
  obtain ⟨msg, hem, hmsg⟩ := hspec rfl
  subst hem
  refine ⟨msg, rfl, hmsg, ?_⟩
  have hne : ¬ strL "failed" = strL "completed" := by decide
  simp only [pollStep, if_neg hne, eq_self_iff_true, if_true, jsOr,
    if_neg hmsg, List.head?_cons]

/-- C4 witness: the theorem applied to a failed status response carrying the
message `"LLM quota exceeded"`. -/
theorem c4_failed_witness :
    ∃ msg, some (strL "LLM quota exceeded") = some msg ∧ msg ≠ [] ∧
      (pollStep ⟨true, some (strL "j1"), none, []⟩
          (.statusOk (strL "failed") (some (strL "LLM quota exceeded"))
            .threw)).1.toasts.head? = some (.error msg) :=
  c4_failed_reads_error_field ⟨true, some (strL "j1"), none, []⟩
    (strL "failed") (some (strL "LLM quota exceeded")) .threw
    (fun _ => ⟨strL "LLM quota exceeded", rfl, by decide⟩) rfl

/-- C9: selecting a prompt template never overwrites non-blank requirements
text — the text input is replaced by the resolved prompt content only when
the current text is empty or whitespace-only, and is left unchanged
otherwise, while the selected prompt and the selector's visibility still
update in both cases. -/
theorem c9_select_prompt_preserves_text (st : GenState) (p : Prompt) :
    (trimJS st.textInput ≠ [] → (selectPrompt st p).textInput = st.textInput) ∧
      (trimJS st.textInput = [] →
        (selectPrompt st p).textInput = resolveContent p.content p.variableSpecs) ∧
      (selectPrompt st p).selectedPrompt = some p ∧
      (selectPrompt st p).showPromptSelector = false := by
  refine ⟨fun h => ?_, fun h => ?_, rfl, rfl⟩
  · simp only [selectPrompt, if_neg h]
  · simp only [selectPrompt, if_pos h]

/-- C9 witness: with the non-blank requirements text `"My reqs"` the text
input survives prompt selection; with a whitespace-only text input it is
pre-filled with the resolved prompt content. -/
theorem c9_select_prompt_witness :
    (selectPrompt ⟨strL "My reqs", none, true, []⟩
        ⟨strL "SRS", strL "Goal: {{goal}}", [⟨strL "goal", none, true, none⟩]⟩).textInput
      = strL "My reqs" ∧
      (selectPrompt ⟨strL "  ", none, true, []⟩
          ⟨strL "SRS", strL "Goal: {{goal}}",
            [⟨strL "goal", none, true, none⟩]⟩).textInput =
        resolveContent (strL "Goal: {{goal}}") [⟨strL "goal", none, true, none⟩] :=
  ⟨(c9_select_prompt_preserves_text ⟨strL "My reqs", none, true, []⟩
      ⟨strL "SRS", strL "Goal: {{goal}}", [⟨strL "goal", none, true, none⟩]⟩).1
      (by decide),
    (c9_select_prompt_preserves_text ⟨strL "  ", none, true, []⟩
      ⟨strL "SRS", strL "Goal: {{goal}}", [⟨strL "goal", none, true, none⟩]⟩).2.1
      (by decide)⟩

/-- C3: export/download of a job that is not completed yields distinct error
kinds — `NotReadyError` for a pending or processing job, `JobFailedError` for
a failed job, `UnsupportedFormatError` for an unknown format — so that "try
again later" is distinguishable from "will never succeed". -/
theorem c3_export_error_kinds (job : JobRecord) (format : List Char) :
    ((job.status = .pending ∨ job.status = .processing) →
        renderExport job format = .error .NotReadyError) ∧
      (job.status = .failed →
        renderExport job format = .error .JobFailedError) ∧
      (job.status = .completed → format ∉ supportedExportFormats →
        renderExport job format = .error .UnsupportedFormatError) ∧
      ExportError.NotReadyError ≠ ExportError.JobFailedError ∧
      ExportError.NotReadyError ≠ ExportError.UnsupportedFormatError ∧
      ExportError.JobFailedError ≠ ExportError.UnsupportedFormatError := by
  refine ⟨?_, ?_, ?_, by decide, by decide, by decide⟩
  · rintro (h | h) <;> simp [renderExport, h]
  · intro h
    simp [renderExport, h]
  · intro h hf
    simp [renderExport, h, hf]

/-- C3 witness: exporting a pending job, a failed job, and a completed job
with format `"exe"`. -/
theorem c3_export_witness :
    renderExport ⟨.pending, none, none⟩ (strL "docx") = .error .NotReadyError ∧
      renderExport ⟨.failed, none, some (strL "boom")⟩ (strL "docx") =
        .error .JobFailedError ∧
      renderExport ⟨.completed, some (strL "# Doc"), none⟩ (strL "exe") =
        .error .UnsupportedFormatError :=
  ⟨(c3_export_error_kinds ⟨.pending, none, none⟩ (strL "docx")).1 (Or.inl rfl),
    (c3_export_error_kinds ⟨.failed, none, some (strL "boom")⟩ (strL "docx")).2.1
      rfl,
    (c3_export_error_kinds ⟨.completed, some (strL "# Doc"), none⟩
      (strL "exe")).2.2.1 rfl (by decide)⟩

theorem lastIdxOf_eq_none (c : Char) :
    ∀ s : List Char, c ∉ s → lastIdxOf c s = none := by
  intro s
  induction s with
  | nil => intro _; rfl
  | cons a as ih =>
    intro h
    have ha : a ≠ c := fun hac => h (hac ▸ List.mem_cons_self a as)
    have has : c ∉ as := fun hc => h (List.mem_cons_of_mem a hc)
    simp only [lastIdxOf, ih has, if_neg ha]

theorem lastIdxOf_append_quote :
    ∀ (name post : List Char), '\x22' ∉ name → '\x22' ∉ post →
      lastIdxOf '\x22' (name ++ '\x22' :: post) = some name.length := by
  intro name
  induction name with
  | nil =>
    intro post _ hpost
    have hstep : lastIdxOf '\x22' ([] ++ '\x22' :: post) =
        match lastIdxOf '\x22' post with
        | some j => some (j + 1)
        | none => if ('\x22' : Char) = '\x22' then some 0 else none := rfl
    rw [hstep, lastIdxOf_eq_none _ post hpost]
    simp
  | cons a as ih =>
    intro post hname hpost
    have has : '\x22' ∉ as := fun hc => hname (List.mem_cons_of_mem a hc)
    have hstep : lastIdxOf '\x22' ((a :: as) ++ '\x22' :: post) =
        match lastIdxOf '\x22' (as ++ '\x22' :: post) with
        | some j => some (j + 1)
        | none => if a = '\x22' then some 0 else none := rfl
    rw [hstep, ih post has hpost]
    rfl

theorem grabCapture_wellformed (name post : List Char) (hname : name ≠ [])
    (hq1 : '\x22' ∉ name) (hq2 : '\x22' ∉ post) :
    grabCapture (name ++ '\x22' :: post) = some name := by
  have hlen : 1 ≤ name.length := by
    cases name with
    | nil => exact absurd rfl hname
    | cons a as => simp
  simp only [grabCapture, lastIdxOf_append_quote name post hq1 hq2, if_pos hlen]
  rw [List.take_left]

theorem extractFilename_skip (rest : List Char) :
    ∀ pre : List Char, (∀ c ∈ pre, c ≠ 'f') →
      extractFilename (pre ++ rest) = extractFilename rest := by
  intro pre
  induction pre with
  | nil => intro _; rfl
  | cons c cs ih =>
    intro h
    have hc : c ≠ 'f' := h c (List.mem_cons_self c cs)
    have hpre : filenameMarker.isPrefixOf (c :: (cs ++ rest)) = false := by
      simp only [filenameMarker, strL, List.isPrefixOf]
      simp only [Bool.and_eq_false_iff]
      left
      exact beq_eq_false_iff_ne.mpr (Ne.symm hc)
    have hstep : extractFilename ((c :: cs) ++ rest) =
        if filenameMarker.isPrefixOf (c :: (cs ++ rest)) then
          match grabCapture
              (List.drop (filenameMarker.length - 1) (cs ++ rest)) with
          | some cap => some cap
          | none => extractFilename (cs ++ rest)
        else extractFilename (cs ++ rest) := rfl
    rw [hstep]
    simp only [hpre, Bool.false_eq_true, if_false]
    exact ih (fun x hx => h x (List.mem_cons_of_mem c hx))

theorem extractFilename_at_marker (tail cap : List Char)
    (h : grabCapture tail = some cap) :
    extractFilename (filenameMarker ++ tail) = some cap := by
  have hm : filenameMarker ++ tail =
      'f' :: (strL "ilename=\x22" ++ tail) := rfl
  rw [hm]
  have hpre : filenameMarker.isPrefixOf ('f' :: (strL "ilename=\x22" ++ tail))
      = true := by
    have := isPrefixOf_self_append filenameMarker tail
    rw [hm] at this
    exact this
  have hdrop : List.drop (filenameMarker.length - 1) (strL "ilename=\x22" ++ tail)
      = tail := by
    have : filenameMarker.length - 1 = (strL "ilename=\x22").length := rfl
    rw [this, List.drop_left]
  simp only [extractFilename, hpre, if_true, hdrop, h]

/-- C8: for every successful download, the returned filename is
`document.<format>` when the response carries no `content-disposition`
filename (header absent, or regex not matching), and equals the header's
quoted filename value when a well-formed `filename="..."` part is present
(well-formed: the preceding header text cannot start the marker, the value is
non-empty and free of quotes and line terminators, and no quote follows). -/
theorem c8_download_filename_format
    (format pre name post s : List Char)
    (hs : extractFilename s = none)
    (hpre : ∀ c ∈ pre, c ≠ 'f') (hname : name ≠ [])
    (hq1 : '\x22' ∉ name) (hnl : '\n' ∉ name) (hq2 : '\x22' ∉ post) :
    downloadFilename format none = strL "document." ++ format ∧
      downloadFilename format (some s) = strL "document." ++ format ∧
      downloadFilename format
          (some (pre ++ (filenameMarker ++ (name ++ '\x22' :: post)))) = name := by
  refine ⟨rfl, ?_, ?_⟩
  · show (match extractFilename s with
      | some f => f
      | none => strL "document." ++ format) = strL "document." ++ format
    rw [hs]
  · have h2 := extractFilename_at_marker (name ++ '\x22' :: post) name
      (grabCapture_wellformed name post hname hq1 hq2)
    have h1 : extractFilename
        (pre ++ (filenameMarker ++ (name ++ '\x22' :: post))) =
          extractFilename (filenameMarker ++ (name ++ '\x22' :: post)) :=
      extractFilename_skip _ pre hpre
    show (match extractFilename
        (pre ++ (filenameMarker ++ (name ++ '\x22' :: post))) with
      | some f => f
      | none => strL "document." ++ format) = name
    rw [h1, h2]

/-- C8 witness: the theorem applied to format `pdf`, a matching header
`attachment; filename="report.docx"` and a non-matching header value
`inline`. -/
theorem c8_download_filename_witness :
    downloadFilename (strL "pdf") none = strL "document." ++ strL "pdf" ∧
      downloadFilename (strL "pdf") (some (strL "inline")) =
        strL "document." ++ strL "pdf" ∧
      downloadFilename (strL "pdf")
          (some (strL "attachment; " ++ (filenameMarker ++ (strL "report.docx"
            ++ '\x22' :: [])))) = strL "report.docx" :=
  c8_download_filename_format (strL "pdf") (strL "attachment; ")
    (strL "report.docx") [] (strL "inline")
    (by decide) (by decide) (by decide) (by decide) (by decide) (by decide)
